import Mathlib

/-!
Verification of the room registry and connection lifecycle manager of the
poc2 Y.js WebSocket server.  The repository contains two near-identical
server variants: `src/server.cjs` and a second unnamed variant
(`src/unnamed/part_000`) that additionally keeps a `docs` map of Y.Doc
handles per room.  Both variants maintain:

  - `activeRooms`  : a `Map` from room name to room data
                     (`createdAt`, `connectionCount`, `lastActivity`);
  - `connectionStats` : `{ totalConnections, activeConnections, roomsCreated }`.

The connection handler (`wss.on('connection')`) and the close handler
(`ws.on('close')`) mutate this state; a periodic reporter
(`setInterval` at the bottom of each file) reads it.

JavaScript numbers are modelled as `Int` (the code decrements counters and
checks `<= 0`, so negative values are representable); timestamps
(`new Date()`) are modelled as an abstract `Nat` tick supplied with each
event; a JavaScript `Map` is modelled as an association list in insertion
order (`Map.set` on a fresh key appends, on an existing key replaces the
value in place; `Map.delete` removes the entry).
-/

/-- The reserved room name used when the request URL is falsy
(`'default'` in the source). -/
def defaultRoom : String := "default"

/-- Room name resolution, from `src/server.cjs` line 44 and
`src/unnamed/part_000` line 62:
`const roomName = url ? url.slice(1) : 'default'`.
A missing (`none`, i.e. `undefined`) or empty URL is falsy and maps to
the default name; otherwise `slice(1)` drops the first character only. -/
def roomName : Option String → String
  | none => defaultRoom
  | some u => if u = "" then defaultRoom else u.drop 1

/-- Per-room state, from the object literal stored into `activeRooms`
(`{ createdAt, connectionCount, lastActivity }`). -/
structure Room where
  createdAt : Nat
  connectionCount : Int
  lastActivity : Nat
deriving DecidableEq, Repr

/-- The `connectionStats` object. -/
structure Stats where
  totalConnections : Int
  activeConnections : Int
  roomsCreated : Int
deriving DecidableEq, Repr

/-- The `activeRooms` JavaScript `Map`, as an association list in
insertion order. -/
abbrev RoomTable := List (String × Room)

/-- Model of `Map.prototype.get` (and of `has`, via `isSome`). -/
def RoomTable.find : RoomTable → String → Option Room
  | [], _ => none
  | (k, v) :: t, n => if k = n then some v else RoomTable.find t n

/-- Model of `Map.prototype.set`: replaces the value of an existing key in place,
otherwise appends the new entry. -/
def RoomTable.set : RoomTable → String → Room → RoomTable
  | [], n, v => [(n, v)]
  | (k, w) :: t, n, v =>
      if k = n then (k, v) :: t else (k, w) :: RoomTable.set t n v

/-- Model of `Map.prototype.delete`. -/
def RoomTable.del : RoomTable → String → RoomTable
  | [], _ => []
  | (k, w) :: t, n => if k = n then t else (k, w) :: RoomTable.del t n

/-- Well-formedness of the association-list encoding of a `Map`:
keys are pairwise distinct. -/
def RoomTable.nodupKeys (t : RoomTable) : Prop := (t.map Prod.fst).Nodup

/-- Sum of `connectionCount` over every room currently in the table. -/
def RoomTable.sumCounts (t : RoomTable) : Int :=
  (t.map (fun p => p.2.connectionCount)).sum

/-- The shared mutable state of `src/server.cjs`: the `activeRooms` map
and the `connectionStats` counters. -/
structure ServerState where
  activeRooms : RoomTable
  stats : Stats
deriving DecidableEq, Repr

/-- State at process start: empty map, all counters zero. -/
def ServerState.empty : ServerState := ⟨[], ⟨0, 0, 0⟩⟩

/-- The connection handler of `src/server.cjs` (lines 39-68): increments
`totalConnections` and `activeConnections`, resolves the room name,
creates the room entry (and increments `roomsCreated`) when absent, then
increments the room's `connectionCount` and refreshes `lastActivity`.
Returns the new state together with the room name captured by the
handler's closure (used later by the close handler).  The `none` branch
of the inner `match` is unreachable: the room was just inserted when
absent. -/
def handleConnection (s : ServerState) (url : Option String) (now : Nat) :
    ServerState × String :=
  let stats1 : Stats :=
    { s.stats with
        totalConnections := s.stats.totalConnections + 1
        activeConnections := s.stats.activeConnections + 1 }
  let name := roomName url
  let createRoom :=
    if (RoomTable.find s.activeRooms name).isSome then
      (s.activeRooms, stats1)
    else
      (RoomTable.set s.activeRooms name ⟨now, 0, now⟩,
       { stats1 with roomsCreated := stats1.roomsCreated + 1 })
  let rooms2 :=
    match RoomTable.find createRoom.1 name with
    | some r =>
        RoomTable.set createRoom.1 name
          { r with connectionCount := r.connectionCount + 1, lastActivity := now }
    | none => createRoom.1
  (⟨rooms2, createRoom.2⟩, name)

/-- The close handler of `src/server.cjs` (lines 71-86): decrements
`activeConnections`; if the captured room is still in the map, decrements
its `connectionCount` and deletes the entry when the count drops to
`<= 0`, otherwise stores the decremented count back. -/
def handleClose (s : ServerState) (name : String) : ServerState :=
  let stats1 : Stats :=
    { s.stats with activeConnections := s.stats.activeConnections - 1 }
  let rooms1 :=
    match RoomTable.find s.activeRooms name with
    | none => s.activeRooms
    | some r =>
        let r1 : Room := { r with connectionCount := r.connectionCount - 1 }
        if r1.connectionCount ≤ 0 then RoomTable.del s.activeRooms name
        else RoomTable.set s.activeRooms name r1
  ⟨rooms1, stats1⟩

/-- An externally visible lifecycle event: a new WebSocket connection
with its request URL (and the current clock tick), or the close of the
`i`-th currently open connection. -/
inductive Event where
  | openConn (url : Option String) (now : Nat)
  | closeConn (i : Nat)
deriving DecidableEq, Repr

/-- The server state together with the room names captured by the close
handlers of the currently open connections (`roomName` is computed once
at connection time and reused at close time via the closure). -/
structure SysState where
  server : ServerState
  openConns : List String
deriving DecidableEq, Repr

/-- Initial system state. -/
def SysState.init : SysState := ⟨ServerState.empty, []⟩

/-- One event step.  A close of an index that denotes no open connection
is a stutter: the transport fires `close` exactly once per accepted
connection, so such an event cannot occur. -/
def runEvent (s : SysState) : Event → SysState
  | .openConn url now =>
      let r := handleConnection s.server url now
      ⟨r.1, r.2 :: s.openConns⟩
  | .closeConn i =>
      match s.openConns.get? i with
      | none => s
      | some name => ⟨handleClose s.server name, s.openConns.eraseIdx i⟩

/-- Run a sequence of events from a given state. -/
def runFrom (s : SysState) : List Event → SysState
  | [] => s
  | e :: es => runFrom (runEvent s e) es

/-- Run a sequence of events from the initial state. -/
def run (es : List Event) : SysState := runFrom SysState.init es

/-- The states reachable by finite sequences of connection-open and
connection-close events. -/
inductive Reachable : SysState → Prop where
  | init : Reachable SysState.init
  | step : ∀ {s} (e : Event), Reachable s → Reachable (runEvent s e)

/-! ## The Reporter

`src/server.cjs` lines 120-135: every five minutes, if
`connectionStats.activeConnections > 0 || activeRooms.size > 0`, a status
record is logged: the aggregate counters, the room count, and one line
per room (`forEach` over `activeRooms`) with its name, `connectionCount`
and `lastActivity`.  Otherwise the tick emits nothing. -/

/-- The data carried by one periodic status record. -/
structure Report where
  activeConnections : Int
  activeRoomCount : Nat
  totalConnections : Int
  rooms : RoomTable
deriving DecidableEq, Repr

/-- One reporter tick: `none` models a tick that prints nothing. -/
def reporterTick (s : ServerState) : Option Report :=
  if s.stats.activeConnections > 0 ∨ 0 < s.activeRooms.length then
    some ⟨s.stats.activeConnections, s.activeRooms.length,
          s.stats.totalConnections, s.activeRooms⟩
  else none

/-! ## The second variant (`src/unnamed/part_000`)

Identical room/stats logic, plus a `docs` map holding one `Y.Doc` per
room, filled lazily by `getYDoc` (lines 41-55) on each connection.  The
doc itself is opaque to the registry, so the map is modelled by its key
list (insertion order, as for any JavaScript `Map`).  No code path ever
deletes from `docs`. -/

/-- State of the `part_000` variant: rooms, stats, and the keys of the
`docs` map. -/
structure Server2State where
  activeRooms : RoomTable
  stats : Stats
  docs : List String
deriving DecidableEq, Repr

/-- Effect of `getYDoc` (lines 41-55) on the `docs` map: creates and
stores a fresh doc when the room has none. -/
def getYDocKeys (docs : List String) (name : String) : List String :=
  if name ∈ docs then docs else docs ++ [name]

/-- Connection handler of `part_000` (lines 57-90): same statements as
`src/server.cjs` plus the `getYDoc(roomName)` call. -/
def handleConnectionP0 (s : Server2State) (url : Option String) (now : Nat) :
    Server2State × String :=
  let stats1 : Stats :=
    { s.stats with
        totalConnections := s.stats.totalConnections + 1
        activeConnections := s.stats.activeConnections + 1 }
  let name := roomName url
  let createRoom :=
    if (RoomTable.find s.activeRooms name).isSome then
      (s.activeRooms, stats1)
    else
      (RoomTable.set s.activeRooms name ⟨now, 0, now⟩,
       { stats1 with roomsCreated := stats1.roomsCreated + 1 })
  let rooms2 :=
    match RoomTable.find createRoom.1 name with
    | some r =>
        RoomTable.set createRoom.1 name
          { r with connectionCount := r.connectionCount + 1, lastActivity := now }
    | none => createRoom.1
  (⟨rooms2, createRoom.2, getYDocKeys s.docs name⟩, name)

/-- Close handler of `part_000` (lines 92-107): identical to the
`src/server.cjs` close handler; `docs` is left untouched. -/
def handleCloseP0 (s : Server2State) (name : String) : Server2State :=
  let stats1 : Stats :=
    { s.stats with activeConnections := s.stats.activeConnections - 1 }
  let rooms1 :=
    match RoomTable.find s.activeRooms name with
    | none => s.activeRooms
    | some r =>
        let r1 : Room := { r with connectionCount := r.connectionCount - 1 }
        if r1.connectionCount ≤ 0 then RoomTable.del s.activeRooms name
        else RoomTable.set s.activeRooms name r1
  ⟨rooms1, stats1, s.docs⟩

/-- System state of the `part_000` variant. -/
structure Sys2State where
  server : Server2State
  openConns : List String
deriving DecidableEq, Repr

/-- Initial state of the `part_000` variant. -/
def Sys2State.init : Sys2State := ⟨⟨[], ⟨0, 0, 0⟩, []⟩, []⟩

/-- One event step of the `part_000` variant. -/
def runEventP0 (s : Sys2State) : Event → Sys2State
  | .openConn url now =>
      let r := handleConnectionP0 s.server url now
      ⟨r.1, r.2 :: s.openConns⟩
  | .closeConn i =>
      match s.openConns.get? i with
      | none => s
      | some name => ⟨handleCloseP0 s.server name, s.openConns.eraseIdx i⟩

/-- Run a sequence of events of the `part_000` variant. -/
def runFromP0 (s : Sys2State) : List Event → Sys2State
  | [] => s
  | e :: es => runFromP0 (runEventP0 s e) es

/-- Run a sequence of events of the `part_000` variant from its initial
state. -/
def runP0 (es : List Event) : Sys2State := runFromP0 Sys2State.init es

/-! ## Lemmas about the association-list model of a JavaScript `Map` -/

theorem RoomTable.find_set_self (t : RoomTable) (k : String) (v : Room) :
    RoomTable.find (RoomTable.set t k v) k = some v := by
  induction t with
  | nil => simp [RoomTable.set, RoomTable.find]
  | cons p t ih =>
      obtain ⟨a, w⟩ := p
      by_cases h : a = k <;> simp [RoomTable.set, RoomTable.find, h, ih]

theorem RoomTable.find_set_ne (t : RoomTable) (k : String) (v : Room) (n : String)
    (h : n ≠ k) : RoomTable.find (RoomTable.set t k v) n = RoomTable.find t n := by
  induction t with
  | nil => simp [RoomTable.set, RoomTable.find, Ne.symm h]
  | cons p t ih =>
      obtain ⟨a, w⟩ := p
      by_cases ha : a = k <;> by_cases hn : a = n <;>
        simp_all [RoomTable.set, RoomTable.find]

theorem RoomTable.find_eq_none_of_not_mem (t : RoomTable) (k : String)
    (h : k ∉ t.map Prod.fst) : RoomTable.find t k = none := by
  induction t with
  | nil => simp [RoomTable.find]
  | cons p t ih =>
      obtain ⟨a, w⟩ := p
      simp only [List.map_cons, List.mem_cons, not_or] at h
      simp [RoomTable.find, Ne.symm h.1, ih h.2]

theorem RoomTable.find_del_self (t : RoomTable) (k : String)
    (h : RoomTable.nodupKeys t) : RoomTable.find (RoomTable.del t k) k = none := by
  induction t with
  | nil => simp [RoomTable.del, RoomTable.find]
  | cons p t ih =>
      obtain ⟨a, w⟩ := p
      simp only [RoomTable.nodupKeys, List.map_cons, List.nodup_cons] at h
      by_cases ha : a = k
      · subst ha
        simp only [RoomTable.del, if_pos rfl]
        exact RoomTable.find_eq_none_of_not_mem t a h.1
      · simp [RoomTable.del, RoomTable.find, ha, ih h.2]

theorem RoomTable.find_del_ne (t : RoomTable) (k n : String) (h : n ≠ k) :
    RoomTable.find (RoomTable.del t k) n = RoomTable.find t n := by
  induction t with
  | nil => simp [RoomTable.del]
  | cons p t ih =>
      obtain ⟨a, w⟩ := p
      by_cases ha : a = k <;> by_cases hn : a = n <;>
        simp_all [RoomTable.del, RoomTable.find]

theorem RoomTable.mem_keys_set (t : RoomTable) (k : String) (v : Room) (n : String)
    (h : n ∈ (RoomTable.set t k v).map Prod.fst) :
    n ∈ t.map Prod.fst ∨ n = k := by
  induction t with
  | nil => simpa [RoomTable.set] using h
  | cons p t ih =>
      obtain ⟨a, w⟩ := p
      by_cases ha : a = k
      · subst ha
        simp [RoomTable.set] at h ⊢
        tauto
      · simp only [RoomTable.set, if_neg ha, List.map_cons, List.mem_cons] at h ⊢
        rcases h with h | h
        · exact Or.inl (Or.inl h)
        · rcases ih h with h | h
          · exact Or.inl (Or.inr h)
          · exact Or.inr h

theorem RoomTable.nodupKeys_set (t : RoomTable) (k : String) (v : Room)
    (h : RoomTable.nodupKeys t) : RoomTable.nodupKeys (RoomTable.set t k v) := by
  induction t with
  | nil => simp [RoomTable.set, RoomTable.nodupKeys]
  | cons p t ih =>
      obtain ⟨a, w⟩ := p
      simp only [RoomTable.nodupKeys, List.map_cons, List.nodup_cons] at h
      by_cases ha : a = k
      · subst ha
        simpa [RoomTable.set, RoomTable.nodupKeys] using h
      · simp only [RoomTable.set, if_neg ha, RoomTable.nodupKeys, List.map_cons,
          List.nodup_cons]
        refine ⟨fun hm => ?_, ih h.2⟩
        rcases RoomTable.mem_keys_set t k v a hm with hm | hm
        · exact h.1 hm
        · exact ha hm

theorem RoomTable.keys_del_sublist (t : RoomTable) (k : String) :
    List.Sublist ((RoomTable.del t k).map Prod.fst) (t.map Prod.fst) := by
  induction t with
  | nil => simp [RoomTable.del]
  | cons p t ih =>
      obtain ⟨a, w⟩ := p
      by_cases ha : a = k
      · simp only [RoomTable.del, if_pos ha, List.map_cons]
        exact List.sublist_cons_self _ _
      · simpa [RoomTable.del, ha] using ih.cons₂ a

theorem RoomTable.nodupKeys_del (t : RoomTable) (k : String)
    (h : RoomTable.nodupKeys t) : RoomTable.nodupKeys (RoomTable.del t k) :=
  (RoomTable.keys_del_sublist t k).nodup h

theorem RoomTable.sumCounts_set (t : RoomTable) (k : String) (v r : Room)
    (h : RoomTable.find t k = some r) :
    RoomTable.sumCounts (RoomTable.set t k v) =
      RoomTable.sumCounts t - r.connectionCount + v.connectionCount := by
  induction t with
  | nil => simp [RoomTable.find] at h
  | cons p t ih =>
      obtain ⟨a, w⟩ := p
      by_cases ha : a = k
      · simp only [RoomTable.find, if_pos ha, Option.some.injEq] at h
        subst h
        simp only [RoomTable.set, if_pos ha, RoomTable.sumCounts, List.map_cons,
          List.sum_cons]
        ring
      · simp only [RoomTable.find, if_neg ha] at h
        simp only [RoomTable.set, if_neg ha, RoomTable.sumCounts, List.map_cons,
          List.sum_cons] at ih ⊢
        rw [ih h]
        ring

theorem RoomTable.sumCounts_set_absent (t : RoomTable) (k : String) (v : Room)
    (h : RoomTable.find t k = none) :
    RoomTable.sumCounts (RoomTable.set t k v) =
      RoomTable.sumCounts t + v.connectionCount := by
  induction t with
  | nil => simp [RoomTable.set, RoomTable.sumCounts]
  | cons p t ih =>
      obtain ⟨a, w⟩ := p
      by_cases ha : a = k
      · simp [RoomTable.find, if_pos ha] at h
      · simp only [RoomTable.find, if_neg ha] at h
        simp only [RoomTable.set, if_neg ha, RoomTable.sumCounts, List.map_cons,
          List.sum_cons] at ih ⊢
        rw [ih h]
        ring

theorem RoomTable.sumCounts_del (t : RoomTable) (k : String) (r : Room)
    (h : RoomTable.find t k = some r) :
    RoomTable.sumCounts (RoomTable.del t k) =
      RoomTable.sumCounts t - r.connectionCount := by
  induction t with
  | nil => simp [RoomTable.find] at h
  | cons p t ih =>
      obtain ⟨a, w⟩ := p
      by_cases ha : a = k
      · simp only [RoomTable.find, if_pos ha, Option.some.injEq] at h
        subst h
        simp only [RoomTable.del, if_pos ha, RoomTable.sumCounts, List.map_cons,
          List.sum_cons]
        ring
      · simp only [RoomTable.find, if_neg ha] at h
        simp only [RoomTable.del, if_neg ha, RoomTable.sumCounts, List.map_cons,
          List.sum_cons] at ih ⊢
        rw [ih h]
        ring

theorem RoomTable.mem_of_find (t : RoomTable) (n : String) (r : Room)
    (h : RoomTable.find t n = some r) : (n, r) ∈ t := by
  induction t with
  | nil => simp [RoomTable.find] at h
  | cons p t ih =>
      obtain ⟨a, w⟩ := p
      by_cases ha : a = n
      · simp only [RoomTable.find, if_pos ha, Option.some.injEq] at h
        subst ha
        subst h
        exact List.mem_cons_self _ _
      · simp only [RoomTable.find, if_neg ha] at h
        exact List.mem_cons_of_mem _ (ih h)

theorem RoomTable.set_set (t : RoomTable) (k : String) (v v' : Room) :
    RoomTable.set (RoomTable.set t k v) k v' = RoomTable.set t k v' := by
  induction t with
  | nil => simp [RoomTable.set]
  | cons p t ih =>
      obtain ⟨a, w⟩ := p
      by_cases h : a = k <;> simp [RoomTable.set, h, ih]

theorem count_eraseIdx_add (l : List String) (i : Nat) (a x : String)
    (h : l.get? i = some a) :
    (l.eraseIdx i).count x + (if a = x then 1 else 0) = l.count x := by
  induction l generalizing i with
  | nil => simp [List.get?] at h
  | cons b t ih =>
      cases i with
      | zero =>
          simp only [List.get?_cons_zero, Option.some.injEq] at h
          subst h
          by_cases hx : b = x <;>
            simp [List.eraseIdx_cons_zero, List.count_cons, hx]
      | succ i =>
          simp only [List.get?_cons_succ] at h
          have hih := ih i h
          simp only [List.eraseIdx_cons_succ, List.count_cons]
          by_cases hax : a = x
          · rw [if_pos hax] at hih ⊢
            omega
          · rw [if_neg hax] at hih ⊢
            omega

/-- Unfolding of `handleConnection` when the room already exists. -/
theorem handleConnection_found (s : ServerState) (url : Option String) (now : Nat)
    (r : Room) (hf : RoomTable.find s.activeRooms (roomName url) = some r) :
    handleConnection s url now =
      (⟨RoomTable.set s.activeRooms (roomName url)
          { r with connectionCount := r.connectionCount + 1, lastActivity := now },
        { s.stats with
            totalConnections := s.stats.totalConnections + 1
            activeConnections := s.stats.activeConnections + 1 }⟩,
       roomName url) := by
  simp [handleConnection, hf]

/-- Unfolding of `handleConnection` when the room is created. -/
theorem handleConnection_new (s : ServerState) (url : Option String) (now : Nat)
    (hf : RoomTable.find s.activeRooms (roomName url) = none) :
    handleConnection s url now =
      (⟨RoomTable.set s.activeRooms (roomName url) ⟨now, 1, now⟩,
        ⟨s.stats.totalConnections + 1, s.stats.activeConnections + 1,
         s.stats.roomsCreated + 1⟩⟩,
       roomName url) := by
  simp [handleConnection, hf, RoomTable.find_set_self, RoomTable.set_set]

/-- Unfolding of `handleClose` when the room is not in the table. -/
theorem handleClose_absent (s : ServerState) (name : String)
    (hf : RoomTable.find s.activeRooms name = none) :
    handleClose s name =
      ⟨s.activeRooms,
       { s.stats with activeConnections := s.stats.activeConnections - 1 }⟩ := by
  simp [handleClose, hf]

/-- Unfolding of `handleClose` on the last connection of a room. -/
theorem handleClose_last (s : ServerState) (name : String) (r : Room)
    (hf : RoomTable.find s.activeRooms name = some r)
    (hc : r.connectionCount - 1 ≤ 0) :
    handleClose s name =
      ⟨RoomTable.del s.activeRooms name,
       { s.stats with activeConnections := s.stats.activeConnections - 1 }⟩ := by
  simp [handleClose, hf, hc]

/-- Unfolding of `handleClose` when other connections remain in the room. -/
theorem handleClose_dec (s : ServerState) (name : String) (r : Room)
    (hf : RoomTable.find s.activeRooms name = some r)
    (hc : ¬ r.connectionCount - 1 ≤ 0) :
    handleClose s name =
      ⟨RoomTable.set s.activeRooms name
         { r with connectionCount := r.connectionCount - 1 },
       { s.stats with activeConnections := s.stats.activeConnections - 1 }⟩ := by
  simp [handleClose, hf, hc]

/-- Inductive invariant tying the Room Table, the stats counters and the
multiset of open connections together. -/
def SysInv (s : SysState) : Prop :=
  RoomTable.nodupKeys s.server.activeRooms ∧
  (∀ n r, RoomTable.find s.server.activeRooms n = some r →
      r.connectionCount = (List.count n s.openConns : Int) ∧
      0 < List.count n s.openConns) ∧
  (∀ n, RoomTable.find s.server.activeRooms n = none →
      List.count n s.openConns = 0) ∧
  s.server.stats.activeConnections = (s.openConns.length : Int) ∧
  RoomTable.sumCounts s.server.activeRooms = s.server.stats.activeConnections

theorem inv_init : SysInv SysState.init := by
  refine ⟨?_, ?_, ?_, ?_, ?_⟩ <;>
    simp [SysState.init, ServerState.empty, RoomTable.nodupKeys,
      RoomTable.sumCounts, RoomTable.find]

theorem inv_step (s : SysState) (e : Event) (h : SysInv s) : SysInv (runEvent s e) := by
  obtain ⟨hnd, hfind, hnone, hact, hsum⟩ := h
  cases e with
  | openConn url now =>
      show SysInv ⟨(handleConnection s.server url now).1,
                (handleConnection s.server url now).2 :: s.openConns⟩
      cases hf : RoomTable.find s.server.activeRooms (roomName url) with
      | some r =>
          rw [handleConnection_found s.server url now r hf]
          obtain ⟨hc, hpos⟩ := hfind _ _ hf
          refine ⟨RoomTable.nodupKeys_set _ _ _ hnd, ?_, ?_, ?_, ?_⟩
          · intro n r'' hfn
            by_cases hn : n = roomName url
            · subst hn
              rw [RoomTable.find_set_self] at hfn
              cases hfn
              rw [List.count_cons_self]
              constructor
              · push_cast
                omega
              · omega
            · rw [RoomTable.find_set_ne _ _ _ _ hn] at hfn
              rw [List.count_cons_of_ne hn]
              exact hfind _ _ hfn
          · intro n hfn
            by_cases hn : n = roomName url
            · subst hn
              rw [RoomTable.find_set_self] at hfn
              cases hfn
            · rw [RoomTable.find_set_ne _ _ _ _ hn] at hfn
              rw [List.count_cons_of_ne hn]
              exact hnone _ hfn
          · simp only [List.length_cons]
            push_cast
            omega
          · rw [RoomTable.sumCounts_set _ _ _ _ hf]
            simp only []
            omega
      | none =>
          rw [handleConnection_new s.server url now hf]
          have hcnt0 := hnone _ hf
          refine ⟨RoomTable.nodupKeys_set _ _ _ hnd, ?_, ?_, ?_, ?_⟩
          · intro n r'' hfn
            by_cases hn : n = roomName url
            · subst hn
              rw [RoomTable.find_set_self] at hfn
              cases hfn
              rw [List.count_cons_self]
              constructor
              · push_cast
                omega
              · omega
            · rw [RoomTable.find_set_ne _ _ _ _ hn] at hfn
              rw [List.count_cons_of_ne hn]
              exact hfind _ _ hfn
          · intro n hfn
            by_cases hn : n = roomName url
            · subst hn
              rw [RoomTable.find_set_self] at hfn
              cases hfn
            · rw [RoomTable.find_set_ne _ _ _ _ hn] at hfn
              rw [List.count_cons_of_ne hn]
              exact hnone _ hfn
          · simp only [List.length_cons]
            push_cast
            omega
          · rw [RoomTable.sumCounts_set_absent _ _ _ hf]
            simp only []
            omega
  | closeConn i =>
      cases hg : s.openConns.get? i with
      | none =>
          simp only [runEvent, hg]
          exact ⟨hnd, hfind, hnone, hact, hsum⟩
      | some name =>
          simp only [runEvent, hg]
          have hmem : name ∈ s.openConns := List.get?_mem hg
          have hcntpos : 0 < List.count name s.openConns :=
            List.count_pos_iff.mpr hmem
          obtain ⟨hilt, -⟩ := List.get?_eq_some.mp hg
          have hlen' : (s.openConns.eraseIdx i).length = s.openConns.length - 1 := by
            rw [List.length_eraseIdx]
            simp [hilt]
          cases hf : RoomTable.find s.server.activeRooms name with
          | none =>
              exact absurd (hnone _ hf) (by omega)
          | some r =>
              obtain ⟨hc, -⟩ := hfind _ _ hf
              have hcself := count_eraseIdx_add s.openConns i name name hg
              rw [if_pos rfl] at hcself
              by_cases hle : r.connectionCount - 1 ≤ 0
              · rw [handleClose_last s.server name r hf hle]
                have hc1 : List.count name s.openConns = 1 := by omega
                unfold SysInv
                dsimp only
                refine ⟨RoomTable.nodupKeys_del _ _ hnd, ?_, ?_, ?_, ?_⟩
                · intro n r'' hfn
                  by_cases hn : n = name
                  · subst hn
                    rw [RoomTable.find_del_self _ _ hnd] at hfn
                    cases hfn
                  · rw [RoomTable.find_del_ne _ _ _ hn] at hfn
                    obtain ⟨h1, h2⟩ := hfind _ _ hfn
                    have hcn := count_eraseIdx_add s.openConns i name n hg
                    rw [if_neg (fun hh => hn hh.symm)] at hcn
                    constructor
                    · omega
                    · omega
                · intro n hfn
                  by_cases hn : n = name
                  · subst hn
                    omega
                  · rw [RoomTable.find_del_ne _ _ _ hn] at hfn
                    have h0 := hnone _ hfn
                    have hcn := count_eraseIdx_add s.openConns i name n hg
                    rw [if_neg (fun hh => hn hh.symm)] at hcn
                    omega
                · simp only [hlen']
                  omega
                · rw [RoomTable.sumCounts_del _ _ _ hf]
                  omega
              · rw [handleClose_dec s.server name r hf hle]
                unfold SysInv
                dsimp only
                refine ⟨RoomTable.nodupKeys_set _ _ _ hnd, ?_, ?_, ?_, ?_⟩
                · intro n r'' hfn
                  by_cases hn : n = name
                  · subst hn
                    rw [RoomTable.find_set_self] at hfn
                    cases hfn
                    have hcn := hcself
                    constructor
                    · dsimp only
                      omega
                    · omega
                  · rw [RoomTable.find_set_ne _ _ _ _ hn] at hfn
                    obtain ⟨h1, h2⟩ := hfind _ _ hfn
                    have hcn := count_eraseIdx_add s.openConns i name n hg
                    rw [if_neg (fun hh => hn hh.symm)] at hcn
                    constructor
                    · omega
                    · omega
                · intro n hfn
                  by_cases hn : n = name
                  · subst hn
                    rw [RoomTable.find_set_self] at hfn
                    cases hfn
                  · rw [RoomTable.find_set_ne _ _ _ _ hn] at hfn
                    have h0 := hnone _ hfn
                    have hcn := count_eraseIdx_add s.openConns i name n hg
                    rw [if_neg (fun hh => hn hh.symm)] at hcn
                    omega
                · simp only [hlen']
                  omega
                · rw [RoomTable.sumCounts_set _ _ _ _ hf]
                  dsimp only
                  omega

theorem reachable_inv {s : SysState} (h : Reachable s) : SysInv s := by
  induction h with
  | init => exact inv_init
  | step e _ ih => exact inv_step _ e ih

theorem reachable_runFrom {s : SysState} (h : Reachable s) (es : List Event) :
    Reachable (runFrom s es) := by
  induction es generalizing s with
  | nil => exact h
  | cons e es ih => exact ih (Reachable.step e h)

theorem reachable_run (es : List Event) : Reachable (run es) :=
  reachable_runFrom Reachable.init es

/-! ## Bridging the two variants -/

theorem handleConnectionP0_rooms (s2 : Server2State) (url : Option String) (now : Nat) :
    (handleConnectionP0 s2 url now).1.activeRooms =
      (handleConnection ⟨s2.activeRooms, s2.stats⟩ url now).1.activeRooms := rfl

theorem handleConnectionP0_stats (s2 : Server2State) (url : Option String) (now : Nat) :
    (handleConnectionP0 s2 url now).1.stats =
      (handleConnection ⟨s2.activeRooms, s2.stats⟩ url now).1.stats := rfl

theorem handleConnectionP0_name (s2 : Server2State) (url : Option String) (now : Nat) :
    (handleConnectionP0 s2 url now).2 =
      (handleConnection ⟨s2.activeRooms, s2.stats⟩ url now).2 := rfl

theorem handleCloseP0_rooms (s2 : Server2State) (nm : String) :
    (handleCloseP0 s2 nm).activeRooms =
      (handleClose ⟨s2.activeRooms, s2.stats⟩ nm).activeRooms := rfl

theorem handleCloseP0_stats (s2 : Server2State) (nm : String) :
    (handleCloseP0 s2 nm).stats =
      (handleClose ⟨s2.activeRooms, s2.stats⟩ nm).stats := rfl

theorem handleCloseP0_docs (s2 : Server2State) (nm : String) :
    (handleCloseP0 s2 nm).docs = s2.docs := rfl

/-- Correspondence between a `part_000` state and a `server.cjs` state:
same Room Table, same stats, same open connections. -/
def StateAgree (s2 : Sys2State) (s : SysState) : Prop :=
  s2.server.activeRooms = s.server.activeRooms ∧
  s2.server.stats = s.server.stats ∧
  s2.openConns = s.openConns

theorem agree_step (s2 : Sys2State) (s : SysState) (e : Event)
    (h : StateAgree s2 s) : StateAgree (runEventP0 s2 e) (runEvent s e) := by
  obtain ⟨h1, h2, h3⟩ := h
  have hcore : (⟨s2.server.activeRooms, s2.server.stats⟩ : ServerState) = s.server := by
    rw [h1, h2]
  cases e with
  | openConn url now =>
      refine ⟨?_, ?_, ?_⟩
      · show (handleConnectionP0 s2.server url now).1.activeRooms =
          (handleConnection s.server url now).1.activeRooms
        rw [handleConnectionP0_rooms, hcore]
      · show (handleConnectionP0 s2.server url now).1.stats =
          (handleConnection s.server url now).1.stats
        rw [handleConnectionP0_stats, hcore]
      · show (handleConnectionP0 s2.server url now).2 :: s2.openConns =
          (handleConnection s.server url now).2 :: s.openConns
        rw [handleConnectionP0_name, hcore, h3]
  | closeConn i =>
      simp only [runEventP0, runEvent, h3]
      cases hg : s.openConns.get? i with
      | none => exact ⟨h1, h2, h3⟩
      | some nm =>
          refine ⟨?_, ?_, h3 ▸ rfl⟩
          · show (handleCloseP0 s2.server nm).activeRooms =
              (handleClose s.server nm).activeRooms
            rw [handleCloseP0_rooms, hcore]
          · show (handleCloseP0 s2.server nm).stats =
              (handleClose s.server nm).stats
            rw [handleCloseP0_stats, hcore]

theorem agree_runFrom (s2 : Sys2State) (s : SysState) (h : StateAgree s2 s)
    (es : List Event) : StateAgree (runFromP0 s2 es) (runFrom s es) := by
  induction es generalizing s2 s with
  | nil => exact h
  | cons e es ih => exact ih _ _ (agree_step s2 s e h)

theorem agree_run (es : List Event) : StateAgree (runP0 es) (run es) :=
  agree_runFrom Sys2State.init SysState.init ⟨rfl, rfl, rfl⟩ es

/-! ## Concrete names used in scenarios -/

def emptyStr : String := ""
def urlAlpha : String := "/alpha"
def alphaName : String := "alpha"
def urlSlash : String := "/"
def urlDocA : String := "/docA"
def docA : String := "docA"
def urlDocAQuery : String := "/docA?token=1"
def docAQuery : String := "docA?token=1"
def urlA : String := "/a"
def aName : String := "a"

/-! ## Claims -/

/-- C1 (counterexample): the claimed equation
`resolveRoomName("/") = "default"` is false: the code computes
`"/".slice(1) = ""`, the empty string, because `"/"` is truthy. -/
theorem roomName_slash_ne_default : roomName (some urlSlash) ≠ defaultRoom := by
  decide

/-- C1 (amended): `roomName` maps `"/alpha"` to `"alpha"` and a falsy
(missing or empty) URL to `"default"`, but maps `"/"` to the empty
string, not to `"default"`. -/
theorem roomName_resolution :
    roomName (some urlAlpha) = alphaName ∧
    roomName (some emptyStr) = defaultRoom ∧
    roomName none = defaultRoom ∧
    roomName (some urlSlash) = emptyStr := by
  decide

/-- C2: in every reachable state, `Stats.activeConnections` equals the
sum of `connectionCount` over all rooms in the Room Table. -/
theorem activeConnections_eq_sumCounts {s : SysState} (h : Reachable s) :
    RoomTable.sumCounts s.server.activeRooms =
      s.server.stats.activeConnections :=
  (reachable_inv h).2.2.2.2

theorem activeConnections_eq_sumCounts_witness :
    RoomTable.sumCounts
        (run [Event.openConn (some urlDocA) 0]).server.activeRooms =
      (run [Event.openConn (some urlDocA) 0]).server.stats.activeConnections :=
  activeConnections_eq_sumCounts (reachable_run _)

/-- C4: in every reachable state, a room is present in the table exactly
when its `connectionCount` is strictly positive (reading the count of an
absent room as 0). -/
theorem room_present_iff_count_pos {s : SysState} (h : Reachable s)
    (n : String) :
    (RoomTable.find s.server.activeRooms n).isSome ↔
      0 < ((RoomTable.find s.server.activeRooms n).map
            Room.connectionCount).getD 0 := by
  obtain ⟨-, hfind, -, -, -⟩ := reachable_inv h
  cases hf : RoomTable.find s.server.activeRooms n with
  | none => simp
  | some r =>
      obtain ⟨h1, h2⟩ := hfind _ _ hf
      simp only [Option.isSome_some, Option.map_some', Option.getD_some]
      constructor
      · intro _
        omega
      · intro _
        trivial

theorem room_present_iff_count_pos_witness :
    (RoomTable.find
        (run [Event.openConn (some urlDocA) 0]).server.activeRooms docA).isSome ↔
      0 < ((RoomTable.find
        (run [Event.openConn (some urlDocA) 0]).server.activeRooms docA).map
          Room.connectionCount).getD 0 :=
  room_present_iff_count_pos (reachable_run _) docA

/-- C5: two clients connecting to `/docA` (at arbitrary times) yield a
table with exactly one room `docA` at `connectionCount = 2`, and
`roomsCreated = 1`. -/
theorem two_joins_same_room (t1 t2 : Nat) :
    ((run [Event.openConn (some urlDocA) t1,
           Event.openConn (some urlDocA) t2]).server.activeRooms.map
        (fun p => (p.1, p.2.connectionCount)) = [(docA, 2)]) ∧
    (run [Event.openConn (some urlDocA) t1,
          Event.openConn (some urlDocA) t2]).server.stats.roomsCreated = 1 :=
  ⟨rfl, rfl⟩

/-- C6: two clients join `/docA` and both close: the room is removed,
`activeConnections = 0`, `totalConnections = 2`; and no close ever
changes `totalConnections`. -/
theorem joins_then_closes (t1 t2 : Nat) :
    ((run [Event.openConn (some urlDocA) t1, Event.openConn (some urlDocA) t2,
           Event.closeConn 0, Event.closeConn 0]).server.activeRooms = [] ∧
     (run [Event.openConn (some urlDocA) t1, Event.openConn (some urlDocA) t2,
           Event.closeConn 0, Event.closeConn 0]).server.stats.activeConnections = 0 ∧
     (run [Event.openConn (some urlDocA) t1, Event.openConn (some urlDocA) t2,
           Event.closeConn 0, Event.closeConn 0]).server.stats.totalConnections = 2) ∧
    ∀ (sv : ServerState) (nm : String),
      (handleClose sv nm).stats.totalConnections = sv.stats.totalConnections :=
  ⟨⟨rfl, rfl, rfl⟩, fun _ _ => rfl⟩

/-- C7: a leave event for a room name absent from the Room Table leaves
the table unchanged (the close handler only touches the table inside the
`activeRooms.has(roomName)` guard). -/
theorem close_unknown_room_noop (sv : ServerState) (nm : String)
    (h : RoomTable.find sv.activeRooms nm = none) :
    (handleClose sv nm).activeRooms = sv.activeRooms := by
  rw [handleClose_absent sv nm h]

theorem close_unknown_room_noop_witness :
    RoomTable.find ServerState.empty.activeRooms docA = none ∧
    (handleClose ServerState.empty docA).activeRooms =
      ServerState.empty.activeRooms :=
  ⟨rfl, close_unknown_room_noop ServerState.empty docA rfl⟩

/-- C8: in every reachable state, a reporter tick emits nothing exactly
when there are zero active connections and an empty Room Table; and
whenever some room is in the table, the tick emits a record whose room
list contains that room (name and `connectionCount` included). -/
theorem reporter_tick_behavior {s : SysState} (h : Reachable s) :
    (reporterTick s.server = none ↔
      s.server.stats.activeConnections = 0 ∧ s.server.activeRooms = []) ∧
    ∀ n r, RoomTable.find s.server.activeRooms n = some r →
      ∃ rep, reporterTick s.server = some rep ∧ (n, r) ∈ rep.rooms := by
  obtain ⟨hnd, hfind, hnone, hact, hsum⟩ := reachable_inv h
  constructor
  · by_cases hcond : s.server.stats.activeConnections > 0 ∨
        0 < s.server.activeRooms.length
    · rw [reporterTick, if_pos hcond]
      apply iff_of_false (by simp)
      rintro ⟨h0, hnil⟩
      rcases hcond with hc | hc
      · omega
      · rw [hnil] at hc
        exact absurd hc (by simp)
    · rw [reporterTick, if_neg hcond]
      push_neg at hcond
      obtain ⟨h1, h2⟩ := hcond
      have htbl : s.server.activeRooms = [] :=
        List.length_eq_zero.mp (by omega)
      have h0 : s.server.stats.activeConnections = 0 := by
        rw [htbl] at hsum
        simpa [RoomTable.sumCounts] using hsum.symm
      simp [htbl, h0]
  · intro n r hf
    have hpos := (hfind _ _ hf).2
    have hmem : n ∈ s.openConns := List.count_pos_iff.mp hpos
    have hlenpos : 0 < s.openConns.length := List.length_pos_of_mem hmem
    have hcond : s.server.stats.activeConnections > 0 ∨
        0 < s.server.activeRooms.length := by
      left
      rw [hact]
      exact_mod_cast hlenpos
    exact ⟨_, by rw [reporterTick, if_pos hcond], RoomTable.mem_of_find _ _ _ hf⟩

theorem reporter_tick_behavior_witness :
    ∃ rep,
      reporterTick (run [Event.openConn (some urlDocA) 0]).server = some rep ∧
      (docA, (⟨0, 1, 0⟩ : Room)) ∈ rep.rooms :=
  (reporter_tick_behavior (reachable_run _)).2 docA ⟨0, 1, 0⟩ rfl

/-- C9: the room key is the request URL minus its first character, so the
query string distinguishes rooms: `/docA` and `/docA?token=1` register
two distinct rooms. -/
theorem roomName_includes_query :
    (∀ u : String, u ≠ emptyStr → roomName (some u) = u.drop 1) ∧
    roomName (some urlDocA) = docA ∧
    roomName (some urlDocAQuery) = docAQuery ∧
    docA ≠ docAQuery ∧
    (run [Event.openConn (some urlDocA) 0,
          Event.openConn (some urlDocAQuery) 0]).server.activeRooms.map
        Prod.fst = [docA, docAQuery] := by
  refine ⟨?_, rfl, rfl, by decide, rfl⟩
  intro u hu
  simp only [roomName, emptyStr] at hu ⊢
  rw [if_neg hu]

theorem roomName_includes_query_witness :
    urlDocA ≠ emptyStr ∧ roomName (some urlDocA) = urlDocA.drop 1 :=
  ⟨by decide, roomName_includes_query.1 urlDocA (by decide)⟩

/-- C10: for every finite event trace, the two server variants produce
identical Room Tables and identical `connectionStats`. -/
theorem variants_equivalent (es : List Event) :
    (runP0 es).server.activeRooms = (run es).server.activeRooms ∧
    (runP0 es).server.stats = (run es).server.stats :=
  ⟨(agree_run es).1, (agree_run es).2.1⟩

/-- C3 (counterexample): after the single connection to room `a` closes,
the Room Table is empty but the `docs` map still holds the room's
document handle: the code never deletes from `docs`. -/
theorem docs_retained_after_close :
    (runP0 [Event.openConn (some urlA) 0,
            Event.closeConn 0]).server.activeRooms = [] ∧
    (runP0 [Event.openConn (some urlA) 0,
            Event.closeConn 0]).server.docs = [aName] :=
  ⟨rfl, rfl⟩

/-- C3 (amended): when the last connection of a room closes, the Room
entry is removed from the Room Table, but the `docs` map is untouched, so
the room's document handle is retained, not released. -/
theorem room_close_removes_entry_keeps_doc (s2 : Server2State) (nm : String)
    (r : Room) (hnd : RoomTable.nodupKeys s2.activeRooms)
    (hf : RoomTable.find s2.activeRooms nm = some r)
    (hc : r.connectionCount - 1 ≤ 0) :
    RoomTable.find (handleCloseP0 s2 nm).activeRooms nm = none ∧
    (handleCloseP0 s2 nm).docs = s2.docs := by
  constructor
  · rw [handleCloseP0_rooms,
        handleClose_last ⟨s2.activeRooms, s2.stats⟩ nm r hf hc]
    exact RoomTable.find_del_self _ _ hnd
  · rfl

theorem room_close_removes_entry_keeps_doc_witness :
    RoomTable.find
        (handleCloseP0 (runP0 [Event.openConn (some urlA) 0]).server
          aName).activeRooms aName = none ∧
    (handleCloseP0 (runP0 [Event.openConn (some urlA) 0]).server
        aName).docs = (runP0 [Event.openConn (some urlA) 0]).server.docs :=
  room_close_removes_entry_keeps_doc _ aName ⟨0, 1, 0⟩
    (by unfold RoomTable.nodupKeys
        decide)
    (by decide) (by decide)
